import Mathlib

/-!
Formal model of the `bevy_editor_cam` camera controller.

Each Rust construct is shallowly embedded as a Lean definition:

* floating point (`f32`/`f64`) arithmetic is modelled over `ℚ` (state machine,
  smoothing queue) or `ℝ` (angles, powers, square roots), with exact
  arithmetic;
* `Instant` / `Duration` values are rationals (or reals), and
  `Instant::duration_since` is the saturating subtraction `satSub`;
* `VecDeque` is a `List` whose head is the deque front (newest entry);
* fallible lookups return `Option`.

The sections below mirror the source files:
`src/cam_component.rs` (smoothing queue, legacy flat controller),
`src/controller/component.rs` (state machine, orbit and zoom resolution) and
`src/controller/zoom.rs` (zoom limits).
-/

attribute [local semireducible] Rat.mul Rat.add Rat.sub Rat.inv Rat.ofScientific

namespace Smoothing

/-- Entry of the smoothed input queue, `InputStreamEntry` in
`src/cam_component.rs` (lines 617-633).  `time` is the instant the sample was
recorded, `fraction_remaining` is how much of the raw sample has not yet been
consumed by smoothing windows, and `smoothed_value` is the smoothed output
precomputed when the sample was inserted. -/
structure InputStreamEntry (M : Type) where
  time : ℚ
  sample : M
  fraction_remaining : ℚ
  smoothed_value : M

/-- The smoothed input queue `InputQueue` of `src/cam_component.rs`: a
`VecDeque` of entries, newest first (list head = deque front). -/
abbrev InputQueue (M : Type) := List (InputStreamEntry M)

/-- Queue capacity, `InputQueue::MAX_EVENTS = 256`. -/
def MAX_EVENTS : ℕ := 256

/-- Saturating subtraction of instants, modelling `Instant::duration_since`
(which returns a zero `Duration` when the argument is in the future). -/
def satSub (a b : ℚ) : ℚ := max (a - b) 0

variable {M : Type} [AddCommGroup M] [Module ℚ M]

/-- Index of the first entry whose age exceeds the smoothing window, the
`queue.iter().enumerate().find(..)` scan of `process_input`
(`src/cam_component.rs` lines 666-671). -/
def find_exceeding (now smoothing : ℚ) : InputQueue M → Option ℕ
  | [] => none
  | e :: rest =>
    if smoothing < satSub now e.time then some 0
    else (find_exceeding now smoothing rest).map (· + 1)

/-- Number of entries covering the smoothing window, including the new sample:
`find(..).map(i).unwrap_or(0) + 1` in `process_input`. -/
def window_size (now smoothing : ℚ) (q : InputQueue M) : ℕ :=
  (find_exceeding now smoothing q).getD 0 + 1

/-- End of the mutable sampling range, `(window_size - 1).clamp(0, queue.len())`
(`usize` subtraction cannot underflow since `window_size ≥ 1`). -/
def range_end (now smoothing : ℚ) (q : InputQueue M) : ℕ :=
  min (window_size now smoothing q - 1) q.length

/-- Target fraction drawn from each entry inside the window,
`1.0 / window_size as f32`. -/
def target_fraction (now smoothing : ℚ) (q : InputQueue M) : ℚ :=
  1 / (window_size now smoothing q : ℚ)

/-- The smoothed value computed for a new sample by `process_input`
(`src/cam_component.rs` lines 676-695): the new input scaled by the target
fraction, plus what is consumed from entries inside the window (at most each
entry's remaining fraction), plus the full remaining fraction of every older
entry that still has weight left (the catch-up loop). -/
def smoothed_value_of (now : ℚ) (new_input : M) (smoothing : ℚ)
    (q : InputQueue M) : M :=
  let t := target_fraction now smoothing q
  let r := range_end now smoothing q
  t • new_input
    + ((q.take r).map fun e => min e.fraction_remaining t • e.sample).sum
    + ((q.drop r).map fun e =>
        if 0 < e.fraction_remaining then e.fraction_remaining • e.sample
        else 0).sum

/-- The bookkeeping of `InputQueue::process_input`
(`src/cam_component.rs` lines 661-704): entries inside the window lose
`min(fraction_remaining, target_fraction)` (floored at `0.0`), older entries
with remaining weight are fully consumed, the queue is truncated to
`MAX_EVENTS - 1` and the new entry (with `fraction_remaining =
1 - target_fraction` and the precomputed smoothed value) is pushed at the
front. -/
def process_input (now : ℚ) (new_input : M) (smoothing : ℚ)
    (q : InputQueue M) : InputQueue M :=
  let t := target_fraction now smoothing q
  let r := range_end now smoothing q
  let upd :=
    ((q.take r).map fun e =>
      { e with fraction_remaining := max (e.fraction_remaining - min e.fraction_remaining t) 0 })
    ++ ((q.drop r).map fun e =>
      if 0 < e.fraction_remaining then { e with fraction_remaining := 0 }
      else e)
  { time := now, sample := new_input, fraction_remaining := 1 - t,
    smoothed_value := smoothed_value_of now new_input smoothing q }
    :: upd.take (MAX_EVENTS - 1)

/-- `InputQueue::latest_smoothed`: the most recent entry's precomputed smoothed
value, or `none` when the queue is empty. -/
def latest_smoothed (q : InputQueue M) : Option M :=
  q.head?.map fun e => e.smoothed_value

/-- `InputQueue::average_smoothed_value(window)`
(`src/cam_component.rs` lines 720-733).  The Rust code initialises `count = 0`
and increments it inside the `reduce` closure, so after reducing `n` filtered
entries `count = n - 1`; the sum is then multiplied by `1.0 / count`.  (For a
single qualifying entry Rust divides by zero, producing a non-finite float; in
this rational model `1 / 0 = 0` so the result is `0` — both disagree with the
entry's value.) -/
def average_smoothed_value (now window : ℚ) (q : InputQueue M) : M :=
  let vals := (q.filter fun e => decide (satSub now e.time < window)).map
    fun e => e.smoothed_value
  match vals with
  | [] => (0 : M)
  | v :: rest => (1 / (rest.length : ℚ)) • (rest.foldl (fun a b => a + b) v)

/-- The default queue (`impl Default for InputQueue`): `MAX_EVENTS - 1`
zero-valued dummy entries, spaced one 60 Hz frame interval apart going back in
time from `start`, each with full remaining fraction. -/
def default_queue (start : ℚ) : InputQueue M :=
  (List.range (MAX_EVENTS - 1)).map fun i : ℕ =>
    { time := start - ((i : ℚ) + 1) * (1 / 60), sample := 0,
      fraction_remaining := 1, smoothed_value := 0 }

/-- One call to `process_input`: the instant of the call, the raw sample, and
the smoothing window requested for this call. -/
structure Call (M : Type) where
  now : ℚ
  sample : M
  smoothing : ℚ

/-- Feed a sequence of calls through `process_input`. -/
def run_queue (q : InputQueue M) : List (Call M) → InputQueue M
  | [] => q
  | c :: rest => run_queue (process_input c.now c.sample c.smoothing q) rest

/-- Sum of the smoothed output values produced by a sequence of calls, each
read back through `latest_smoothed` right after its call. -/
def outputs_sum (q : InputQueue M) : List (Call M) → M
  | [] => 0
  | c :: rest =>
    let q2 := process_input c.now c.sample c.smoothing q
    (latest_smoothed q2).getD 0 + outputs_sum q2 rest

/-- Total weight still stored in the queue: the sum over all entries of
`fraction_remaining • sample` (the part of each raw sample not yet emitted). -/
def queue_weight (q : InputQueue M) : M :=
  (q.map fun e => e.fraction_remaining • e.sample).sum

end Smoothing

/-- Real 3-vectors, modelling `DVec3` in the resolver math sections. -/
abbrev V3R := ℝ × ℝ × ℝ

/-- Euclidean length of a `DVec3`. -/
noncomputable def norm3 (a : V3R) : ℝ := Real.sqrt (a.1 ^ 2 + a.2.1 ^ 2 + a.2.2 ^ 2)

/-- `DVec3::normalize`: the vector divided by its length.  (glam returns NaN
components for the zero vector; here `(norm3 0)⁻¹ = 0⁻¹ = 0`, and every
theorem that depends on the direction assumes a nonzero vector.) -/
noncomputable def normalize3 (a : V3R) : V3R := (norm3 a)⁻¹ • a

/-- Componentwise product with `DVec3::new(1.0, 1.0, 0.0)`: zeroes the z
component. -/
def mask_xy (v : V3R) : V3R := (v.1, v.2.1, 0)

/-- Euclidean length of a `DVec2`. -/
noncomputable def norm2 (v : ℝ × ℝ) : ℝ := Real.sqrt (v.1 ^ 2 + v.2 ^ 2)

namespace MomentumDecay

/-- Momentum configuration (`Momentum` in `src/cam_component.rs` lines
443-457): 8-bit momentum amounts for pan and orbit (`u8`, so `≤ 255`). -/
structure Momentum where
  pan : ℕ
  orbit : ℕ

/-- The per-second decay multiplier `(amount as f64 / 256.0).powf(0.1)`
(`Momentum::orbit_decay` / `Momentum::pan_decay`,
`src/cam_component.rs` lines 469-477). -/
noncomputable def per_second_decay (amount : ℕ) : ℝ :=
  ((amount : ℝ) / 256) ^ (0.1 : ℝ)

/-- Modelled from the spec: the decay multiplier of
`controller::momentum::Velocity::decay(momentum, delta_time)`.  The
`controller/momentum.rs` module is not under `src/`; only its caller
(`src/controller/component.rs` line 490, `velocity.decay(self.momentum,
delta_time)`) is.  Per the spec, the velocity is multiplied by "a per-second
decay factor derived from an 8-bit momentum amount parameter (`amount/256`)
raised to a small fractional power, applied proportionally to `dt`": the
per-second factor `(amount/256)^0.1` (the power used by the legacy
`Momentum::orbit_decay` in `src/cam_component.rs`) raised to the elapsed
seconds `dt`. -/
noncomputable def decay_factor (amount : ℕ) (dt : ℝ) : ℝ :=
  per_second_decay amount ^ dt

/-- Momentum velocity (`Velocity` in `src/cam_component.rs` lines 547-559):
no motion, or an orbit / pan velocity around a view-space anchor. -/
inductive Velocity where
  | None : Velocity
  | Orbit (anchor : V3R) (velocity : ℝ × ℝ) : Velocity
  | Pan (anchor : V3R) (velocity : ℝ × ℝ) : Velocity

/-- `Velocity::DECAY_THRESHOLD = 1e-3`: once the velocity magnitude falls to
this threshold or below, the velocity collapses to `None`. -/
noncomputable def DECAY_THRESHOLD : ℝ := 1e-3

/-- Modelled from the spec: `controller::momentum::Velocity::decay(momentum,
delta_time)` (module missing from `src/`, caller at
`src/controller/component.rs` line 490).  The stored velocity is multiplied by
the decay factor for the elapsed time, and collapses to `None` once its
magnitude is at most `DECAY_THRESHOLD` — the same structure as the legacy
per-frame `Velocity::decay` of `src/cam_component.rs` lines 561-585, with the
multiplier applied proportionally to `dt`. -/
noncomputable def decay (m : Momentum) (dt : ℝ) : Velocity → Velocity
  | .None => .None
  | .Orbit a v =>
    if norm2 (decay_factor m.orbit dt • v) ≤ DECAY_THRESHOLD then .None
    else .Orbit a (decay_factor m.orbit dt • v)
  | .Pan a v =>
    if norm2 (decay_factor m.pan dt • v) ≤ DECAY_THRESHOLD then .None
    else .Pan a (decay_factor m.pan dt • v)

end MomentumDecay

namespace OrbitResolver

/-- `GIMBAL_LOCK_EPSILON = 1e-3` (`src/controller/component.rs` line 659). -/
noncomputable def gimbal_lock_epsilon : ℝ := 1e-3

/-- `MOTION_THRESHOLD = 1e-5` (`src/controller/component.rs` line 660). -/
noncomputable def motion_threshold : ℝ := 1e-5

/-- `orbit_multiplier = 0.005` (`src/controller/component.rs` line 631). -/
noncomputable def orbit_multiplier : ℝ := 0.005

/-- The pitch clamp of `update_transform_and_projection_impl`
(`src/controller/component.rs` lines 667-676): the desired pitch rotation is
`orbit.y * orbit_multiplier`; with `can_pass_tdc = false` a non-negative
desired rotation is capped at `angle_to_tdc - min(epsilon, angle_to_tdc)` and
a negative one is floored at `-angle_to_bdc + min(epsilon, angle_to_bdc)`. -/
noncomputable def pitch_angle (can_pass_tdc : Bool) (orbit_y angle_to_tdc angle_to_bdc : ℝ) : ℝ :=
  let desired_rotation := orbit_y * orbit_multiplier
  if can_pass_tdc then desired_rotation
  else if 0 ≤ desired_rotation then
    min desired_rotation (angle_to_tdc - min gimbal_lock_epsilon angle_to_tdc)
  else
    max desired_rotation (-angle_to_bdc + min gimbal_lock_epsilon angle_to_bdc)

/-- The pitch rotation actually applied (`src/controller/component.rs` lines
677-681): the clamped pitch, or the identity rotation (angle `0`) when its
absolute value is at most `MOTION_THRESHOLD`. -/
noncomputable def applied_pitch (can_pass_tdc : Bool) (orbit_y angle_to_tdc angle_to_bdc : ℝ) : ℝ :=
  let p := pitch_angle can_pass_tdc orbit_y angle_to_tdc angle_to_bdc
  if |p| ≤ motion_threshold then 0 else p

/-- One frame of pitch applied to the angle between camera-forward and the
top-dead-center pole `-up`.  Modelled geometry: the pitch quaternion rotates
about the camera's left axis inside the plane spanned by `forward` and `up`
(bevy math is external to this repository), so it decreases the
forward-to-TDC angle by exactly the applied pitch; the angle to BDC (`+up`)
is `π` minus the angle to TDC, since `up` and `-up` are antipodal.  The yaw
quaternion rotates about `up` itself and leaves the angle between `forward`
and `±up` unchanged, and the subsequent `look_to` roll correction keeps
`forward` fixed, so neither moves this angle. -/
noncomputable def pitch_step (can_pass_tdc : Bool) (orbit_y φ : ℝ) : ℝ :=
  φ - applied_pitch can_pass_tdc orbit_y φ (Real.pi - φ)

end OrbitResolver

namespace ZoomResolver

/-- `ZoomLimits` (`src/controller/zoom.rs` lines 10-38). -/
structure ZoomLimits where
  min_size_per_pixel : ℝ
  max_size_per_pixel : ℝ
  zoom_through_objects : Bool

/-- The camera projection parameters used by the zoom resolver: a perspective
projection's field of view, or an orthographic projection's scale. -/
inductive Projection where
  | Perspective (fov : ℝ) : Projection
  | Orthographic (scale : ℝ) : Projection

/-- Rust `f64::clamp(lo, hi)`. -/
noncomputable def rust_clamp (x lo hi : ℝ) : ℝ := min (max x lo) hi

/-- The zoom input bounded against the zoom limits
(`src/controller/component.rs` lines 569-576): at or below the minimum
size-per-pixel only non-positive (zoom-out) input passes, at or above the
maximum only non-negative (zoom-in) input passes. -/
noncomputable def zoom_bounded (lim : ZoomLimits) (size_at_anchor zoom : ℝ) : ℝ :=
  if size_at_anchor ≤ lim.min_size_per_pixel then min zoom 0
  else if lim.max_size_per_pixel ≤ size_at_anchor then max zoom 0
  else zoom

/-- Result of the zoom portion of one per-frame update:
`zoom_translation_view_space` is the view-space zoom translation;
`anchor_advanced` is the anchor right after the zoom-through advance (line
610, `*anchor += zoom_translation_view_space`), before the camera translation;
`anchor_after` is the anchor after the shared update `*anchor -=
pan_translation_view_space + zoom_translation_view_space` (line 617);
`cam_delta_view_space` is the view-space translation added (rotated into world
space, which is external math) to the camera position (lines 613-615);
`projection_after` is the projection after the orthographic scale update. -/
structure ZoomStepResult where
  zoom_translation_view_space : V3R
  anchor_advanced : V3R
  anchor_after : V3R
  cam_delta_view_space : V3R
  projection_after : Projection

/-- The zoom resolution of `update_transform_and_projection_impl`
(`src/controller/component.rs` lines 564-617): the bounded zoom, the
view-space zoom translation for each projection kind (perspective:
`anchor.normalize() * zoom_amount / fov` with the raw zoom times the clamped
size-per-pixel when zooming through objects, else the bounded zoom times the
size-per-pixel; orthographic: scale multiplied by `1 - zoom_bounded * 0.0015`
and translation `anchor.normalize() * zoom_bounded * |anchor.z| * 0.0015 *
(1,1,0)`), the zoom-through anchor advance (only for perspective projections,
when below the minimum size and zooming in), and the shared anchor/camera
translation updates. -/
noncomputable def zoom_step (lim : ZoomLimits) (proj : Projection)
    (size_at_anchor zoom : ℝ) (anchor pan_translation_view_space : V3R) :
    ZoomStepResult :=
  let zb := zoom_bounded lim size_at_anchor zoom
  match proj with
  | .Perspective fov =>
    let zoom_amount :=
      if lim.zoom_through_objects then
        zoom * rust_clamp size_at_anchor lim.min_size_per_pixel lim.max_size_per_pixel
      else zb * size_at_anchor
    let zt := (zoom_amount / fov) • normalize3 anchor
    let anchor2 :=
      if lim.zoom_through_objects = true ∧ size_at_anchor < lim.min_size_per_pixel ∧ 0 < zoom
      then anchor + zt else anchor
    { zoom_translation_view_space := zt
      anchor_advanced := anchor2
      anchor_after := anchor2 - (pan_translation_view_space + zt)
      cam_delta_view_space := pan_translation_view_space + zt
      projection_after := .Perspective fov }
  | .Orthographic scale =>
    let zt := (zb * |anchor.2.2| * 0.0015) • mask_xy (normalize3 anchor)
    { zoom_translation_view_space := zt
      anchor_advanced := anchor
      anchor_after := anchor - (pan_translation_view_space + zt)
      cam_delta_view_space := pan_translation_view_space + zt
      projection_after := .Orthographic (scale * (1 - zb * 0.0015)) }

end ZoomResolver

namespace Controller

/-- Screen-space 2-vectors (`Vec2`/`DVec2`), modelled over `ℚ`. -/
abbrev Vec2 := ℚ × ℚ

/-- View-space 3-vectors (`DVec3`), modelled over `ℚ`. -/
abbrev DVec3 := ℚ × ℚ × ℚ

/-- `EnabledMotion` (`src/controller/component.rs` lines 794-802). -/
structure EnabledMotion where
  pan : Bool
  orbit : Bool
  zoom : Bool

/-- The smoothing windows (`Smoothing` settings struct, referenced by
`self.smoothing.pan/orbit/zoom` in `src/controller/component.rs`; same shape
as `Smoothness` in `src/cam_component.rs` lines 419-424). -/
structure SmoothingSettings where
  pan : ℚ
  orbit : ℚ
  zoom : ℚ

/-- The momentum settings read by the state machine
(`self.momentum.init_orbit` / `self.momentum.init_pan` at
`src/controller/component.rs` lines 394-398 are the smoothing windows used to
seed momentum; `pan` / `orbit` are the `u8` decay amounts as in
`src/cam_component.rs` lines 443-457). -/
structure Momentum where
  init_pan : ℚ
  init_orbit : ℚ
  pan : ℕ
  orbit : ℕ

/-- `MotionInputs` (`src/cam_component.rs` lines 752-773; the field name
`screenspace_inputs` follows `src/controller/component.rs`): the live input
queues of a user-controlled motion.  Pan and orbit are mutually exclusive;
both compose with zoom. -/
inductive MotionInputs where
  | OrbitZoom (screenspace_inputs : Smoothing.InputQueue Vec2)
      (zoom_inputs : Smoothing.InputQueue ℚ) : MotionInputs
  | PanZoom (screenspace_inputs : Smoothing.InputQueue Vec2)
      (zoom_inputs : Smoothing.InputQueue ℚ) : MotionInputs
  | Zoom (zoom_inputs : Smoothing.InputQueue ℚ) : MotionInputs

/-- The momentum-seed velocity (`Velocity` of `controller::momentum`, same
constructors as `src/cam_component.rs` lines 547-559). -/
inductive Velocity where
  | None : Velocity
  | Orbit (anchor : DVec3) (velocity : Vec2) : Velocity
  | Pan (anchor : DVec3) (velocity : Vec2) : Velocity

/-- `CurrentMotion` (`controller::motion`): its three constructors and their
fields appear at `src/controller/component.rs` lines 337-347, 383-408 and
483-508 — `Stationary`, `Momentum { velocity, momentum_start }`, and
`UserControlled { anchor, motion_inputs }`. -/
inductive CurrentMotion where
  | Stationary : CurrentMotion
  | Momentum (velocity : Velocity) (momentum_start : ℚ) : CurrentMotion
  | UserControlled (anchor : DVec3) (motion_inputs : MotionInputs) : CurrentMotion

/-- The `EditorCam` component (`src/controller/component.rs` lines 142-175),
restricted to the fields read or written by the motion state machine
operations modelled here (the projection settings, zoom limits and orbit
constraint are only read by the per-frame transform update). -/
structure EditorCam where
  enabled_motion : EnabledMotion
  smoothing : SmoothingSettings
  momentum : Momentum
  input_debounce : ℚ
  last_anchor_depth : ℚ
  current_motion : CurrentMotion

/-- `Default for EditorCam` (`src/controller/component.rs` lines 177-193):
all motions enabled, `last_anchor_depth = -2.0`, stationary.  The smoothing
and momentum windows take the default values of `src/cam_component.rs` lines
43-64 (16/40/80 ms input smoothing, 40 ms momentum windows, amounts 150
and 100). -/
def default_editor_cam : EditorCam :=
  { enabled_motion := { pan := true, orbit := true, zoom := true }
    smoothing := { pan := 2 / 125, orbit := 1 / 25, zoom := 2 / 25 }
    momentum := { init_pan := 1 / 25, init_orbit := 1 / 25, pan := 150, orbit := 100 }
    input_debounce := 2 / 25
    last_anchor_depth := -2
    current_motion := .Stationary }

/-- `f32::EPSILON = 2⁻²³`, the magnitude threshold of `validate_anchor`. -/
def f32_epsilon : ℚ := 1 / 8388608

/-- Squared Euclidean length of a `DVec3` over `ℚ` (written with explicit
products so that it evaluates by kernel reduction). -/
def length_sq (a : DVec3) : ℚ := a.1 * a.1 + a.2.1 * a.2.1 + a.2.2 * a.2.2

/-- The `validate_anchor` closure of `maybe_update_anchor`
(`src/controller/component.rs` lines 237-238):
`anchor.length() >= f32::EPSILON as f64 && anchor.is_finite()`.  Rational
vectors are always finite, and for nonnegative lengths
`‖a‖ ≥ ε ↔ ‖a‖² ≥ ε²`, so the check is stated on squares. -/
def validate_anchor (a : DVec3) : Bool :=
  decide (f32_epsilon * f32_epsilon ≤ length_sq a)

/-- The fallback anchor of `maybe_update_anchor`
(`src/controller/component.rs` lines 241-248): the hint (always finite here)
with its depth forced to the sign-corrected last depth, when that validates;
otherwise `(0, 0, z_last)`. -/
def fallback_anchor (cam : EditorCam) (anchor : Option DVec3) : DVec3 :=
  let z_last := -|cam.last_anchor_depth|
  match anchor with
  | some a =>
    let forced : DVec3 := (a.1, a.2.1, z_last)
    if validate_anchor forced then forced else (0, 0, z_last)
  | none => (0, 0, z_last)

/-- `EditorCam::maybe_update_anchor` (`src/controller/component.rs` lines
236-254): a hint that passes `validate_anchor` is used as-is; otherwise the
fallback is used; `last_anchor_depth` is then set to the chosen anchor's z
component.  Returns the chosen anchor together with the updated state. -/
def maybe_update_anchor (cam : EditorCam) (anchor : Option DVec3) :
    DVec3 × EditorCam :=
  let chosen :=
    match anchor with
    | some a => if validate_anchor a then a else fallback_anchor cam anchor
    | none => fallback_anchor cam anchor
  (chosen, { cam with last_anchor_depth := chosen.2.2 })

/-- `EditorCam::start_orbit` (`src/controller/component.rs` lines 300-311).
`now` models the `Instant::now()` used by the fresh default queues. -/
def start_orbit (now : ℚ) (anchor : Option DVec3) (cam : EditorCam) : EditorCam :=
  if !cam.enabled_motion.orbit then cam
  else
    let r := maybe_update_anchor cam anchor
    { r.2 with current_motion := .UserControlled r.1 (.OrbitZoom
        (Smoothing.default_queue now) (Smoothing.default_queue now)) }

/-- `EditorCam::start_pan` (`src/controller/component.rs` lines 315-326). -/
def start_pan (now : ℚ) (anchor : Option DVec3) (cam : EditorCam) : EditorCam :=
  if !cam.enabled_motion.pan then cam
  else
    let r := maybe_update_anchor cam anchor
    { r.2 with current_motion := .UserControlled r.1 (.PanZoom
        (Smoothing.default_queue now) (Smoothing.default_queue now)) }

/-- The zoom queue of a `MotionInputs` (`MotionInputs::zoom_inputs_mut`,
`src/cam_component.rs` lines 849-855). -/
def zoom_inputs_of : MotionInputs → Smoothing.InputQueue ℚ
  | .OrbitZoom _ z => z
  | .PanZoom _ z => z
  | .Zoom z => z

/-- `EditorCam::start_zoom` (`src/controller/component.rs` lines 330-348): a
zoom motion started while user-controlled inherits (drains) the existing zoom
queue, otherwise it gets a fresh default queue. -/
def start_zoom (now : ℚ) (anchor : Option DVec3) (cam : EditorCam) : EditorCam :=
  if !cam.enabled_motion.zoom then cam
  else
    let r := maybe_update_anchor cam anchor
    let zoom_inputs :=
      match r.2.current_motion with
      | .Stationary => Smoothing.default_queue now
      | .Momentum _ _ => Smoothing.default_queue now
      | .UserControlled _ motion_inputs => zoom_inputs_of motion_inputs
    { r.2 with current_motion := .UserControlled r.1 (.Zoom zoom_inputs) }

/-- `EditorCam::send_screenspace_input` (`src/controller/component.rs` lines
352-370): feeds the screen-space queue of an orbit motion with the orbit
smoothing window, of a pan motion with the pan smoothing window, and is
ignored for pure zoom or when not user controlled. -/
def send_screenspace_input (now : ℚ) (v : Vec2) (cam : EditorCam) : EditorCam :=
  match cam.current_motion with
  | .UserControlled a (.OrbitZoom movement z) =>
    { cam with current_motion := .UserControlled a (.OrbitZoom
        (Smoothing.process_input now v cam.smoothing.orbit movement) z) }
  | .UserControlled a (.PanZoom movement z) =>
    { cam with current_motion := .UserControlled a (.PanZoom
        (Smoothing.process_input now v cam.smoothing.pan movement) z) }
  | _ => cam

/-- `EditorCam::send_zoom_input` (`src/controller/component.rs` lines
372-379): feeds the zoom queue of any user-controlled motion with the zoom
smoothing window. -/
def send_zoom_input (now : ℚ) (amount : ℚ) (cam : EditorCam) : EditorCam :=
  match cam.current_motion with
  | .UserControlled a (.OrbitZoom movement z) =>
    { cam with current_motion := .UserControlled a (.OrbitZoom movement
        (Smoothing.process_input now amount cam.smoothing.zoom z)) }
  | .UserControlled a (.PanZoom movement z) =>
    { cam with current_motion := .UserControlled a (.PanZoom movement
        (Smoothing.process_input now amount cam.smoothing.zoom z)) }
  | .UserControlled a (.Zoom z) =>
    { cam with current_motion := .UserControlled a (.Zoom
        (Smoothing.process_input now amount cam.smoothing.zoom z)) }
  | _ => cam

/-- `MotionInputs::orbit_momentum` (`src/cam_component.rs` lines 806-817):
the time-windowed average of the orbit queue's smoothed values (rational
vectors are always finite, so the `is_finite` fallback never fires). -/
def orbit_momentum (mi : MotionInputs) (window now : ℚ) : Vec2 :=
  match mi with
  | .OrbitZoom movement _ => Smoothing.average_smoothed_value now window movement
  | _ => 0

/-- `MotionInputs::pan_momentum` (`src/cam_component.rs` lines 819-830). -/
def pan_momentum (mi : MotionInputs) (window now : ℚ) : Vec2 :=
  match mi with
  | .PanZoom movement _ => Smoothing.average_smoothed_value now window movement
  | _ => 0

/-- The momentum-seed velocity computed by `EditorCam::end_move`
(`src/controller/component.rs` lines 391-401): orbit and pan motions seed a
velocity from their momentum windows, pure zoom seeds `Velocity::None`. -/
def seed_velocity (anchor : DVec3) (mi : MotionInputs) (m : Momentum)
    (now : ℚ) : Velocity :=
  match mi with
  | .OrbitZoom _ _ => .Orbit anchor (orbit_momentum mi m.init_orbit now)
  | .PanZoom _ _ => .Pan anchor (pan_momentum mi m.init_pan now)
  | .Zoom _ => .None

/-- `EditorCam::end_move` (`src/controller/component.rs` lines 383-408):
returns unchanged while stationary or already in momentum; a user-controlled
motion transitions to `Momentum` with the seed velocity and
`momentum_start = Instant::now()` (modelled by `now`). -/
def end_move (now : ℚ) (cam : EditorCam) : EditorCam :=
  match cam.current_motion with
  | .Stationary => cam
  | .Momentum _ _ => cam
  | .UserControlled anchor motion_inputs =>
    { cam with current_motion := .Momentum (seed_velocity anchor motion_inputs cam.momentum now) now }

/-- One state-machine operation, with the instant at which it is issued. -/
inductive Op where
  | start_orbit (now : ℚ) (anchor : Option DVec3) : Op
  | start_pan (now : ℚ) (anchor : Option DVec3) : Op
  | start_zoom (now : ℚ) (anchor : Option DVec3) : Op
  | send_screenspace_input (now : ℚ) (v : Vec2) : Op
  | send_zoom_input (now : ℚ) (amount : ℚ) : Op
  | end_move (now : ℚ) : Op

/-- Dispatch one operation. -/
def apply_op (cam : EditorCam) : Op → EditorCam
  | .start_orbit now a => start_orbit now a cam
  | .start_pan now a => start_pan now a cam
  | .start_zoom now a => start_zoom now a cam
  | .send_screenspace_input now v => send_screenspace_input now v cam
  | .send_zoom_input now x => send_zoom_input now x cam
  | .end_move now => end_move now cam

/-- Apply a sequence of operations in order. -/
def apply_ops (cam : EditorCam) : List Op → EditorCam
  | [] => cam
  | op :: rest => apply_ops (apply_op cam op) rest

/-- Does the operation's anchor hint (if any) have a non-positive z
component? -/
def hint_z_nonpos : Op → Bool
  | .start_orbit _ (some a) => decide (a.2.2 ≤ 0)
  | .start_pan _ (some a) => decide (a.2.2 ≤ 0)
  | .start_zoom _ (some a) => decide (a.2.2 ≤ 0)
  | _ => true

end Controller

namespace Controller

theorem maybe_update_anchor_last_nonpos (cam : EditorCam) (aopt : Option DVec3)
    (ha : ∀ a ∈ aopt, a.2.2 ≤ 0) :
    (maybe_update_anchor cam aopt).2.last_anchor_depth ≤ 0 := by
  have habs : -|cam.last_anchor_depth| ≤ 0 := neg_nonpos.mpr (abs_nonneg _)
  cases aopt with
  | none => simp only [maybe_update_anchor, fallback_anchor]; exact habs
  | some a =>
    have ha2 : a.2.2 ≤ 0 := ha a rfl
    simp only [maybe_update_anchor, fallback_anchor]
    split_ifs with h1 h2
    · exact ha2
    · exact habs
    · exact habs

theorem apply_op_last_nonpos (cam : EditorCam) (op : Op)
    (h0 : cam.last_anchor_depth ≤ 0) (hop : hint_z_nonpos op = true) :
    (apply_op cam op).last_anchor_depth ≤ 0 := by
  cases op with
  | start_orbit now a =>
    have ha : ∀ x ∈ a, x.2.2 ≤ 0 := by
      intro x hx; cases a with
      | none => cases hx
      | some y =>
        cases hx
        simpa [hint_z_nonpos] using hop
    by_cases he : cam.enabled_motion.orbit
    · simpa [apply_op, start_orbit, he] using maybe_update_anchor_last_nonpos cam a ha
    · simpa [apply_op, start_orbit, he] using h0
  | start_pan now a =>
    have ha : ∀ x ∈ a, x.2.2 ≤ 0 := by
      intro x hx; cases a with
      | none => cases hx
      | some y =>
        cases hx
        simpa [hint_z_nonpos] using hop
    by_cases he : cam.enabled_motion.pan
    · simpa [apply_op, start_pan, he] using maybe_update_anchor_last_nonpos cam a ha
    · simpa [apply_op, start_pan, he] using h0
  | start_zoom now a =>
    have ha : ∀ x ∈ a, x.2.2 ≤ 0 := by
      intro x hx; cases a with
      | none => cases hx
      | some y =>
        cases hx
        simpa [hint_z_nonpos] using hop
    by_cases he : cam.enabled_motion.zoom
    · have := maybe_update_anchor_last_nonpos cam a ha
      cases hm : (maybe_update_anchor cam a).2.current_motion <;>
        simpa [apply_op, start_zoom, he, hm] using this
    · simpa [apply_op, start_zoom, he] using h0
  | send_screenspace_input now v =>
    cases hm : cam.current_motion with
    | UserControlled anchor mi =>
      cases mi <;> simpa [apply_op, send_screenspace_input, hm] using h0
    | Stationary => simpa [apply_op, send_screenspace_input, hm] using h0
    | Momentum vel t => simpa [apply_op, send_screenspace_input, hm] using h0
  | send_zoom_input now x =>
    cases hm : cam.current_motion with
    | UserControlled anchor mi =>
      cases mi <;> simpa [apply_op, send_zoom_input, hm] using h0
    | Stationary => simpa [apply_op, send_zoom_input, hm] using h0
    | Momentum vel t => simpa [apply_op, send_zoom_input, hm] using h0
  | end_move now =>
    cases hm : cam.current_motion <;> simpa [apply_op, end_move, hm] using h0

end Controller

/-- C6 counterexample: the claim fails on a start with a positive-depth anchor
hint.  Starting an orbit on the default controller with the finite,
non-negligible hint `(1, 1, 1)` stores `last_anchor_depth = 1 > 0`:
`maybe_update_anchor` keeps a validated hint's own z component. -/
theorem last_anchor_depth_positive_after_positive_hint :
    (Controller.apply_ops Controller.default_editor_cam
        [Controller.Op.start_orbit 0 (some (1, 1, 1))]).last_anchor_depth = 1
    ∧ ¬ (Controller.apply_ops Controller.default_editor_cam
        [Controller.Op.start_orbit 0 (some (1, 1, 1))]).last_anchor_depth ≤ 0 := by
  constructor
  · decide
  · decide

/-- C6 (amended): after any sequence of `start_orbit`/`start_pan`/`start_zoom`
(with anchor hints whose z components are non-positive, or no hint),
`send_screenspace_input`, `send_zoom_input` and `end_move` calls, starting
from any state with `last_anchor_depth ≤ 0`, the field stays non-positive. -/
theorem last_anchor_depth_nonpos_of_nonpos_hints (ops : List Controller.Op)
    (cam : Controller.EditorCam) (h0 : cam.last_anchor_depth ≤ 0)
    (hops : ∀ op ∈ ops, Controller.hint_z_nonpos op = true) :
    (Controller.apply_ops cam ops).last_anchor_depth ≤ 0 := by
  induction ops generalizing cam with
  | nil => exact h0
  | cons op rest ih =>
    exact ih (Controller.apply_op cam op)
      (Controller.apply_op_last_nonpos cam op h0 (hops op (List.mem_cons_self op rest)))
      fun o ho => hops o (List.mem_cons_of_mem op ho)

/-- C6 witness: a concrete sequence with non-positive hint depths keeps the
default controller's `last_anchor_depth` non-positive. -/
theorem last_anchor_depth_nonpos_of_nonpos_hints_witness :
    Controller.default_editor_cam.last_anchor_depth ≤ 0
    ∧ (∀ op ∈ [Controller.Op.start_orbit 0 (some (1, 1, -1)), Controller.Op.end_move 1],
        Controller.hint_z_nonpos op = true)
    ∧ (Controller.apply_ops Controller.default_editor_cam
        [Controller.Op.start_orbit 0 (some (1, 1, -1)),
         Controller.Op.end_move 1]).last_anchor_depth ≤ 0 :=
  ⟨by decide, by decide,
    last_anchor_depth_nonpos_of_nonpos_hints _ _ (by decide) (by decide)⟩

/-- C8 counterexample: with the default controller (`last_anchor_depth = -2`)
and the finite, non-negligible hint `(1, 1, 1)`, `maybe_update_anchor` returns
the hint unchanged — not the hint with its depth forced to the sign-corrected
last depth `(1, 1, -2)` as the claim states. -/
theorem anchor_hint_depth_not_forced :
    (Controller.maybe_update_anchor Controller.default_editor_cam
        (some (1, 1, 1))).1 = (1, 1, 1)
    ∧ ((1, 1, 1) : Controller.DVec3) ≠ (1, 1, -2) := by
  constructor
  · decide
  · decide

/-- C8 (amended): a hint that is finite with non-negligible magnitude is used
as the anchor unchanged (its depth is not forced); a finite hint of negligible
magnitude falls back to the hint with depth replaced by the sign-corrected
last depth when that passes the magnitude check, else to
`(0, 0, -|last_anchor_depth|)`; a missing hint falls back to
`(0, 0, -|last_anchor_depth|)`; in every case `last_anchor_depth` is updated
to the chosen anchor's z component. -/
theorem maybe_update_anchor_resolution (cam : Controller.EditorCam)
    (a : Controller.DVec3) :
    (Controller.validate_anchor a = true →
      Controller.maybe_update_anchor cam (some a)
        = (a, { cam with last_anchor_depth := a.2.2 }))
    ∧ (Controller.validate_anchor a = false →
      Controller.maybe_update_anchor cam (some a)
        = (Controller.fallback_anchor cam (some a),
           { cam with last_anchor_depth := (Controller.fallback_anchor cam (some a)).2.2 }))
    ∧ Controller.maybe_update_anchor cam none
        = ((0, 0, -|cam.last_anchor_depth|),
           { cam with last_anchor_depth := -|cam.last_anchor_depth| }) := by
  refine ⟨fun h => ?_, fun h => ?_, ?_⟩
  · simp [Controller.maybe_update_anchor, h]
  · simp [Controller.maybe_update_anchor, h]
  · simp [Controller.maybe_update_anchor, Controller.fallback_anchor]

/-- C8 witness: the amended resolution evaluated on the default controller and
the hint `(1, 1, 1)`. -/
theorem maybe_update_anchor_resolution_witness :
    (Controller.validate_anchor (1, 1, 1) = true →
      Controller.maybe_update_anchor Controller.default_editor_cam (some (1, 1, 1))
        = ((1, 1, 1), { Controller.default_editor_cam with last_anchor_depth := ((1, 1, 1) : Controller.DVec3).2.2 }))
    ∧ (Controller.validate_anchor (1, 1, 1) = false →
      Controller.maybe_update_anchor Controller.default_editor_cam (some (1, 1, 1))
        = (Controller.fallback_anchor Controller.default_editor_cam (some (1, 1, 1)),
           { Controller.default_editor_cam with last_anchor_depth := (Controller.fallback_anchor Controller.default_editor_cam (some (1, 1, 1))).2.2 }))
    ∧ Controller.maybe_update_anchor Controller.default_editor_cam none
        = ((0, 0, -|Controller.default_editor_cam.last_anchor_depth|),
           { Controller.default_editor_cam with last_anchor_depth := -|Controller.default_editor_cam.last_anchor_depth| }) :=
  maybe_update_anchor_resolution Controller.default_editor_cam (1, 1, 1)

/-- C9: starting a motion kind that is disabled in `enabled_motion` is a
no-op — the controller state (including `current_motion` and
`last_anchor_depth`) is returned unchanged by `start_orbit`, `start_pan` and
`start_zoom` respectively. -/
theorem disabled_motion_start_noop (now : ℚ) (a : Option Controller.DVec3)
    (cam : Controller.EditorCam) :
    (cam.enabled_motion.orbit = false → Controller.start_orbit now a cam = cam)
    ∧ (cam.enabled_motion.pan = false → Controller.start_pan now a cam = cam)
    ∧ (cam.enabled_motion.zoom = false → Controller.start_zoom now a cam = cam) := by
  refine ⟨fun h => ?_, fun h => ?_, fun h => ?_⟩
  · simp [Controller.start_orbit, h]
  · simp [Controller.start_pan, h]
  · simp [Controller.start_zoom, h]

/-- C9 witness: the no-op evaluated on a controller with all motions
disabled. -/
theorem disabled_motion_start_noop_witness :
    (({ Controller.default_editor_cam with enabled_motion := ⟨false, false, false⟩ } : Controller.EditorCam).enabled_motion.orbit = false →
      Controller.start_orbit 0 none { Controller.default_editor_cam with enabled_motion := ⟨false, false, false⟩ }
        = { Controller.default_editor_cam with enabled_motion := ⟨false, false, false⟩ })
    ∧ (({ Controller.default_editor_cam with enabled_motion := ⟨false, false, false⟩ } : Controller.EditorCam).enabled_motion.pan = false →
      Controller.start_pan 0 none { Controller.default_editor_cam with enabled_motion := ⟨false, false, false⟩ }
        = { Controller.default_editor_cam with enabled_motion := ⟨false, false, false⟩ })
    ∧ (({ Controller.default_editor_cam with enabled_motion := ⟨false, false, false⟩ } : Controller.EditorCam).enabled_motion.zoom = false →
      Controller.start_zoom 0 none { Controller.default_editor_cam with enabled_motion := ⟨false, false, false⟩ }
        = { Controller.default_editor_cam with enabled_motion := ⟨false, false, false⟩ }) :=
  disabled_motion_start_noop 0 none _

/-- C10: `end_move` called while the motion is `Stationary` or already
`Momentum` returns the state completely unchanged (it neither cancels nor
re-seeds the decaying velocity); only a `UserControlled` motion transitions to
`Momentum`, with a freshly computed seed velocity and the current instant. -/
theorem end_move_noop_unless_user_controlled (now : ℚ)
    (cam : Controller.EditorCam) :
    (cam.current_motion = .Stationary → Controller.end_move now cam = cam)
    ∧ (∀ v t, cam.current_motion = .Momentum v t → Controller.end_move now cam = cam)
    ∧ (∀ a mi, cam.current_motion = .UserControlled a mi →
        Controller.end_move now cam
          = { cam with current_motion := .Momentum (Controller.seed_velocity a mi cam.momentum now) now }) := by
  refine ⟨fun h => ?_, fun v t h => ?_, fun a mi h => ?_⟩
  · simp [Controller.end_move, h]
  · simp [Controller.end_move, h]
  · simp [Controller.end_move, h]

/-- C10 witness: `end_move` evaluated on the (stationary) default
controller. -/
theorem end_move_noop_unless_user_controlled_witness :
    (Controller.default_editor_cam.current_motion = .Stationary →
      Controller.end_move 0 Controller.default_editor_cam = Controller.default_editor_cam)
    ∧ (∀ v t, Controller.default_editor_cam.current_motion = .Momentum v t →
      Controller.end_move 0 Controller.default_editor_cam = Controller.default_editor_cam)
    ∧ (∀ a mi, Controller.default_editor_cam.current_motion = .UserControlled a mi →
      Controller.end_move 0 Controller.default_editor_cam
        = { Controller.default_editor_cam with current_motion := .Momentum (Controller.seed_velocity a mi Controller.default_editor_cam.momentum 0) 0 }) :=
  end_move_noop_unless_user_controlled 0 Controller.default_editor_cam

theorem norm3_pos (a : V3R) (ha : a ≠ 0) : 0 < norm3 a := by
  rcases lt_or_eq_of_le (Real.sqrt_nonneg (a.1 ^ 2 + a.2.1 ^ 2 + a.2.2 ^ 2)) with h | h
  · exact h
  · exfalso
    have hsum : a.1 ^ 2 + a.2.1 ^ 2 + a.2.2 ^ 2 ≤ 0 := Real.sqrt_eq_zero'.mp h.symm
    have h1 : a.1 = 0 := by nlinarith [sq_nonneg a.1, sq_nonneg a.2.1, sq_nonneg a.2.2]
    have h2 : a.2.1 = 0 := by nlinarith [sq_nonneg a.1, sq_nonneg a.2.1, sq_nonneg a.2.2]
    have h3 : a.2.2 = 0 := by nlinarith [sq_nonneg a.1, sq_nonneg a.2.1, sq_nonneg a.2.2]
    exact ha (by simp [Prod.ext_iff, h1, h2, h3])

namespace ZoomResolver

theorem zoom_bounded_zero_at_min (lim : ZoomLimits) (s z : ℝ)
    (hs : s ≤ lim.min_size_per_pixel) (hz : 0 < z) :
    zoom_bounded lim s z = 0 := by
  unfold zoom_bounded
  rw [if_pos hs]
  exact min_eq_right hz.le

theorem zoom_bounded_zero_at_max (lim : ZoomLimits) (s z : ℝ)
    (hlim : lim.min_size_per_pixel < lim.max_size_per_pixel)
    (hs : lim.max_size_per_pixel ≤ s) (hz : z < 0) :
    zoom_bounded lim s z = 0 := by
  unfold zoom_bounded
  rw [if_neg (by linarith), if_pos hs]
  exact max_eq_right hz.le

end ZoomResolver

/-- C4: with `zoom_through_objects = false`, whenever the size-per-pixel at
the anchor is at or below `min_size_per_pixel`, a positive (zoom-in) input
produces a zero zoom translation (the anchor only moves by the pan
translation and the projection is unchanged); symmetrically, at or above
`max_size_per_pixel` a negative (zoom-out) input produces a zero zoom
translation.  In particular a zoom-in step taken at or below the minimum
leaves the anchor (and hence its size-per-pixel) unchanged, so repeated
zoom-in inputs can never push the size-per-pixel further below the
minimum. -/
theorem zoom_limit_clamp (lim : ZoomResolver.ZoomLimits)
    (proj : ZoomResolver.Projection) (s z : ℝ) (anchor panT : V3R)
    (hthrough : lim.zoom_through_objects = false)
    (hlim : lim.min_size_per_pixel < lim.max_size_per_pixel) :
    (s ≤ lim.min_size_per_pixel → 0 < z →
      (ZoomResolver.zoom_step lim proj s z anchor panT).zoom_translation_view_space = 0
      ∧ (ZoomResolver.zoom_step lim proj s z anchor panT).anchor_after = anchor - panT
      ∧ (ZoomResolver.zoom_step lim proj s z anchor panT).projection_after = proj)
    ∧ (lim.max_size_per_pixel ≤ s → z < 0 →
      (ZoomResolver.zoom_step lim proj s z anchor panT).zoom_translation_view_space = 0
      ∧ (ZoomResolver.zoom_step lim proj s z anchor panT).anchor_after = anchor - panT
      ∧ (ZoomResolver.zoom_step lim proj s z anchor panT).projection_after = proj) := by
  constructor
  · intro hs hz
    have hzb := ZoomResolver.zoom_bounded_zero_at_min lim s z hs hz
    cases proj with
    | Perspective fov =>
      refine ⟨?_, ?_, ?_⟩ <;>
        simp [ZoomResolver.zoom_step, hthrough, hzb, sub_eq_sub_iff_sub_eq_sub]
    | Orthographic scale =>
      refine ⟨?_, ?_, ?_⟩ <;> simp [ZoomResolver.zoom_step, hzb]
  · intro hs hz
    have hzb := ZoomResolver.zoom_bounded_zero_at_max lim s z hlim hs hz
    cases proj with
    | Perspective fov =>
      refine ⟨?_, ?_, ?_⟩ <;>
        simp [ZoomResolver.zoom_step, hthrough, hzb, sub_eq_sub_iff_sub_eq_sub]
    | Orthographic scale =>
      refine ⟨?_, ?_, ?_⟩ <;> simp [ZoomResolver.zoom_step, hzb]

/-- C4 witness: the clamp evaluated at a perspective camera sitting at the
minimum size-per-pixel. -/
theorem zoom_limit_clamp_witness :
    ((⟨1, 2, false⟩ : ZoomResolver.ZoomLimits).zoom_through_objects = false
      ∧ (⟨1, 2, false⟩ : ZoomResolver.ZoomLimits).min_size_per_pixel
          < (⟨1, 2, false⟩ : ZoomResolver.ZoomLimits).max_size_per_pixel)
    ∧ (((1 : ℝ) ≤ (⟨1, 2, false⟩ : ZoomResolver.ZoomLimits).min_size_per_pixel → (0 : ℝ) < 5 →
      (ZoomResolver.zoom_step ⟨1, 2, false⟩ (.Perspective 1) 1 5 (0, 0, -2) 0).zoom_translation_view_space = 0
      ∧ (ZoomResolver.zoom_step ⟨1, 2, false⟩ (.Perspective 1) 1 5 (0, 0, -2) 0).anchor_after = ((0, 0, -2) : V3R) - 0
      ∧ (ZoomResolver.zoom_step ⟨1, 2, false⟩ (.Perspective 1) 1 5 (0, 0, -2) 0).projection_after = .Perspective 1)
    ∧ ((⟨1, 2, false⟩ : ZoomResolver.ZoomLimits).max_size_per_pixel ≤ (1 : ℝ) → (5 : ℝ) < 0 →
      (ZoomResolver.zoom_step ⟨1, 2, false⟩ (.Perspective 1) 1 5 (0, 0, -2) 0).zoom_translation_view_space = 0
      ∧ (ZoomResolver.zoom_step ⟨1, 2, false⟩ (.Perspective 1) 1 5 (0, 0, -2) 0).anchor_after = ((0, 0, -2) : V3R) - 0
      ∧ (ZoomResolver.zoom_step ⟨1, 2, false⟩ (.Perspective 1) 1 5 (0, 0, -2) 0).projection_after = .Perspective 1)) :=
  ⟨⟨rfl, by norm_num⟩, zoom_limit_clamp ⟨1, 2, false⟩ (.Perspective 1) 1 5 (0, 0, -2) 0 rfl (by norm_num)⟩

/-- C5: with `zoom_through_objects = true`, a perspective projection, the
size-per-pixel at the anchor strictly below `min_size_per_pixel`, and a
positive zoom input, the anchor is advanced forward by the zoom translation
(added to the view-space anchor before the camera translation), the zoom
translation is the nonzero vector `(zoom * min_size_per_pixel) / (fov *
‖anchor‖) • anchor` (the raw zoom times the clamped size-per-pixel, not the
bounded zoom), the camera still receives the full pan-plus-zoom view-space
delta, and after the shared anchor update the advance cancels so the anchor
ends at `anchor - pan` (the camera keeps moving forward past the surface
instead of stopping). -/
theorem zoom_through_advances_anchor (lim : ZoomResolver.ZoomLimits)
    (fov s z : ℝ) (anchor panT : V3R)
    (hthrough : lim.zoom_through_objects = true)
    (hs : s < lim.min_size_per_pixel) (hz : 0 < z)
    (hmin : 0 < lim.min_size_per_pixel)
    (hmm : lim.min_size_per_pixel ≤ lim.max_size_per_pixel)
    (hfov : 0 < fov) (ha : anchor ≠ 0) :
    (ZoomResolver.zoom_step lim (.Perspective fov) s z anchor panT).anchor_advanced
      = anchor + (ZoomResolver.zoom_step lim (.Perspective fov) s z anchor panT).zoom_translation_view_space
    ∧ (ZoomResolver.zoom_step lim (.Perspective fov) s z anchor panT).zoom_translation_view_space
      = ((z * lim.min_size_per_pixel) / (fov * norm3 anchor)) • anchor
    ∧ (ZoomResolver.zoom_step lim (.Perspective fov) s z anchor panT).zoom_translation_view_space ≠ 0
    ∧ (ZoomResolver.zoom_step lim (.Perspective fov) s z anchor panT).anchor_after = anchor - panT
    ∧ (ZoomResolver.zoom_step lim (.Perspective fov) s z anchor panT).cam_delta_view_space
      = panT + (ZoomResolver.zoom_step lim (.Perspective fov) s z anchor panT).zoom_translation_view_space := by
  have hnorm : 0 < norm3 anchor := norm3_pos anchor ha
  have hclamp : ZoomResolver.rust_clamp s lim.min_size_per_pixel lim.max_size_per_pixel
      = lim.min_size_per_pixel := by
    unfold ZoomResolver.rust_clamp
    rw [max_eq_right hs.le]
    exact min_eq_left hmm
  have hcond : (lim.zoom_through_objects = true ∧ s < lim.min_size_per_pixel ∧ 0 < z) :=
    ⟨hthrough, hs, hz⟩
  have hzt : (ZoomResolver.zoom_step lim (.Perspective fov) s z anchor panT).zoom_translation_view_space
      = ((z * lim.min_size_per_pixel) / (fov * norm3 anchor)) • anchor := by
    simp only [ZoomResolver.zoom_step, hthrough, if_true, hclamp, normalize3, smul_smul]
    congr 1
    field_simp
  have hpos : 0 < (z * lim.min_size_per_pixel) / (fov * norm3 anchor) :=
    div_pos (mul_pos hz hmin) (mul_pos hfov hnorm)
  refine ⟨?_, hzt, ?_, ?_, ?_⟩
  · simp only [ZoomResolver.zoom_step, if_pos hcond]
  · rw [hzt]
    exact smul_ne_zero (ne_of_gt hpos) ha
  · simp only [ZoomResolver.zoom_step, if_pos hcond]
    abel
  · simp only [ZoomResolver.zoom_step]

/-- C5 witness: the zoom-through step evaluated below the minimum
size-per-pixel. -/
theorem zoom_through_advances_anchor_witness :
    ((⟨1, 2, true⟩ : ZoomResolver.ZoomLimits).zoom_through_objects = true
      ∧ (1 / 2 : ℝ) < (⟨1, 2, true⟩ : ZoomResolver.ZoomLimits).min_size_per_pixel
      ∧ (0 : ℝ) < 1
      ∧ (0 : ℝ) < (⟨1, 2, true⟩ : ZoomResolver.ZoomLimits).min_size_per_pixel
      ∧ (⟨1, 2, true⟩ : ZoomResolver.ZoomLimits).min_size_per_pixel
          ≤ (⟨1, 2, true⟩ : ZoomResolver.ZoomLimits).max_size_per_pixel
      ∧ (0 : ℝ) < 1
      ∧ ((0, 0, -3) : V3R) ≠ 0)
    ∧ ((ZoomResolver.zoom_step ⟨1, 2, true⟩ (.Perspective 1) (1 / 2) 1 (0, 0, -3) 0).anchor_advanced
      = ((0, 0, -3) : V3R) + (ZoomResolver.zoom_step ⟨1, 2, true⟩ (.Perspective 1) (1 / 2) 1 (0, 0, -3) 0).zoom_translation_view_space
    ∧ (ZoomResolver.zoom_step ⟨1, 2, true⟩ (.Perspective 1) (1 / 2) 1 (0, 0, -3) 0).zoom_translation_view_space
      = (((1 : ℝ) * (⟨1, 2, true⟩ : ZoomResolver.ZoomLimits).min_size_per_pixel) / ((1 : ℝ) * norm3 (0, 0, -3))) • ((0, 0, -3) : V3R)
    ∧ (ZoomResolver.zoom_step ⟨1, 2, true⟩ (.Perspective 1) (1 / 2) 1 (0, 0, -3) 0).zoom_translation_view_space ≠ 0
    ∧ (ZoomResolver.zoom_step ⟨1, 2, true⟩ (.Perspective 1) (1 / 2) 1 (0, 0, -3) 0).anchor_after = ((0, 0, -3) : V3R) - 0
    ∧ (ZoomResolver.zoom_step ⟨1, 2, true⟩ (.Perspective 1) (1 / 2) 1 (0, 0, -3) 0).cam_delta_view_space
      = (0 : V3R) + (ZoomResolver.zoom_step ⟨1, 2, true⟩ (.Perspective 1) (1 / 2) 1 (0, 0, -3) 0).zoom_translation_view_space) :=
  ⟨⟨rfl, by norm_num, by norm_num, by norm_num, by norm_num, by norm_num,
      by simp [Prod.ext_iff]⟩,
    zoom_through_advances_anchor ⟨1, 2, true⟩ 1 (1 / 2) 1 (0, 0, -3) 0 rfl
      (by norm_num) (by norm_num) (by norm_num) (by norm_num) (by norm_num)
      (by simp [Prod.ext_iff])⟩

namespace MomentumDecay

theorem per_second_decay_nonneg (amount : ℕ) : 0 ≤ per_second_decay amount :=
  Real.rpow_nonneg (by positivity) _

theorem per_second_decay_le_one (amount : ℕ) (h : amount ≤ 255) :
    per_second_decay amount ≤ 1 := by
  unfold per_second_decay
  refine Real.rpow_le_one (by positivity) ?_ (by norm_num)
  rw [div_le_one (by norm_num)]
  have h2 : (amount : ℝ) ≤ 255 := by exact_mod_cast h
  linarith

theorem decay_factor_nonneg (amount : ℕ) (dt : ℝ) : 0 ≤ decay_factor amount dt :=
  Real.rpow_nonneg (per_second_decay_nonneg amount) dt

theorem decay_factor_le_one (amount : ℕ) (h : amount ≤ 255) (dt : ℝ)
    (hdt : 0 ≤ dt) : decay_factor amount dt ≤ 1 :=
  Real.rpow_le_one (per_second_decay_nonneg amount) (per_second_decay_le_one amount h) hdt

theorem decay_factor_add (amount : ℕ) (dt1 dt2 : ℝ) (h1 : 0 ≤ dt1)
    (h2 : 0 ≤ dt2) :
    decay_factor amount (dt1 + dt2) = decay_factor amount dt1 * decay_factor amount dt2 := by
  unfold decay_factor
  rcases lt_or_eq_of_le (per_second_decay_nonneg amount) with hpos | hzero
  · exact Real.rpow_add hpos dt1 dt2
  · rw [← hzero]
    by_cases hd1 : dt1 = 0
    · subst hd1
      simp [Real.rpow_zero]
    · have hd1p : 0 < dt1 := lt_of_le_of_ne h1 (Ne.symm hd1)
      have h12 : dt1 + dt2 ≠ 0 := ne_of_gt (by linarith)
      rw [Real.zero_rpow h12, Real.zero_rpow hd1]
      simp

theorem norm2_nonneg (v : ℝ × ℝ) : 0 ≤ norm2 v := Real.sqrt_nonneg _

theorem norm2_smul_nonneg (c : ℝ) (hc : 0 ≤ c) (v : ℝ × ℝ) :
    norm2 (c • v) = c * norm2 v := by
  unfold norm2
  have h1 : (c • v).1 = c * v.1 := rfl
  have h2 : (c • v).2 = c * v.2 := rfl
  rw [h1, h2, show (c * v.1) ^ 2 + (c * v.2) ^ 2 = c ^ 2 * (v.1 ^ 2 + v.2 ^ 2) from by ring,
    Real.sqrt_mul (sq_nonneg c), Real.sqrt_sq hc]

theorem decay_decay (m : Momentum) (hp : m.pan ≤ 255) (ho : m.orbit ≤ 255)
    (dt1 dt2 : ℝ) (h1 : 0 ≤ dt1) (h2 : 0 ≤ dt2) (v : Velocity) :
    decay m dt2 (decay m dt1 v) = decay m (dt1 + dt2) v := by
  cases v with
  | None => simp [decay]
  | Orbit a w =>
    have hf1 : 0 ≤ decay_factor m.orbit dt1 := decay_factor_nonneg _ _
    have hf2 : 0 ≤ decay_factor m.orbit dt2 := decay_factor_nonneg _ _
    have hf2le : decay_factor m.orbit dt2 ≤ 1 := decay_factor_le_one _ ho _ h2
    have hadd := decay_factor_add m.orbit dt1 dt2 h1 h2
    have hw : 0 ≤ norm2 w := norm2_nonneg w
    by_cases hth : norm2 (decay_factor m.orbit dt1 • w) ≤ DECAY_THRESHOLD
    · have hth2 : norm2 (decay_factor m.orbit (dt1 + dt2) • w) ≤ DECAY_THRESHOLD := by
        rw [norm2_smul_nonneg _ (decay_factor_nonneg _ _) w, hadd]
        rw [norm2_smul_nonneg _ hf1 w] at hth
        nlinarith [mul_le_of_le_one_left (mul_nonneg hf1 hw) hf2le]
      simp [decay, hth, hth2]
    · have hvec : decay_factor m.orbit dt2 • decay_factor m.orbit dt1 • w
          = decay_factor m.orbit (dt1 + dt2) • w := by
        rw [smul_smul, hadd, mul_comm]
      simp only [decay, if_neg hth, hvec]
  | Pan a w =>
    have hf1 : 0 ≤ decay_factor m.pan dt1 := decay_factor_nonneg _ _
    have hf2 : 0 ≤ decay_factor m.pan dt2 := decay_factor_nonneg _ _
    have hf2le : decay_factor m.pan dt2 ≤ 1 := decay_factor_le_one _ hp _ h2
    have hadd := decay_factor_add m.pan dt1 dt2 h1 h2
    have hw : 0 ≤ norm2 w := norm2_nonneg w
    by_cases hth : norm2 (decay_factor m.pan dt1 • w) ≤ DECAY_THRESHOLD
    · have hth2 : norm2 (decay_factor m.pan (dt1 + dt2) • w) ≤ DECAY_THRESHOLD := by
        rw [norm2_smul_nonneg _ (decay_factor_nonneg _ _) w, hadd]
        rw [norm2_smul_nonneg _ hf1 w] at hth
        nlinarith [mul_le_of_le_one_left (mul_nonneg hf1 hw) hf2le]
      simp [decay, hth, hth2]
    · have hvec : decay_factor m.pan dt2 • decay_factor m.pan dt1 • w
          = decay_factor m.pan (dt1 + dt2) • w := by
        rw [smul_smul, hadd, mul_comm]
      simp only [decay, if_neg hth, hvec]

theorem decay_foldl (m : Momentum) (hp : m.pan ≤ 255) (ho : m.orbit ≤ 255) :
    ∀ (dts : List ℝ), dts ≠ [] → (∀ dt ∈ dts, 0 ≤ dt) → ∀ v : Velocity,
      dts.foldl (fun vel dt => decay m dt vel) v = decay m dts.sum v := by
  intro dts
  induction dts with
  | nil => intro h; exact absurd rfl h
  | cons d rest ih =>
    intro _ hnn v
    have hd : 0 ≤ d := hnn d (List.mem_cons_self d rest)
    cases rest with
    | nil => simp [List.foldl]
    | cons d2 rest2 =>
      have hnn2 : ∀ dt ∈ d2 :: rest2, 0 ≤ dt :=
        fun dt h => hnn dt (List.mem_cons_of_mem d h)
      have hsum2 : 0 ≤ (d2 :: rest2).sum := List.sum_nonneg hnn2
      calc (d :: d2 :: rest2).foldl (fun vel dt => decay m dt vel) v
          = (d2 :: rest2).foldl (fun vel dt => decay m dt vel) (decay m d v) := by
            rw [List.foldl_cons]
        _ = decay m (d2 :: rest2).sum (decay m d v) := ih (by simp) hnn2 _
        _ = decay m (d + (d2 :: rest2).sum) v := decay_decay m hp ho d _ hd hsum2 v
        _ = decay m (d :: d2 :: rest2).sum v := by simp [List.sum_cons]

end MomentumDecay

/-- C2: frame-rate independence of momentum decay.  For every momentum
configuration (with `u8` amounts), every stored velocity, and every split of
a total elapsed duration into a nonempty sequence of non-negative sub-steps,
applying `Velocity::decay` once per sub-step yields exactly the same velocity
(including the collapse to `None` at the `1e-3` threshold) as a single decay
over the summed duration. -/
theorem momentum_decay_frame_rate_independent (m : MomentumDecay.Momentum)
    (hpan : m.pan ≤ 255) (horbit : m.orbit ≤ 255) (v : MomentumDecay.Velocity)
    (dts : List ℝ) (hne : dts ≠ []) (hnn : ∀ dt ∈ dts, 0 ≤ dt) :
    dts.foldl (fun vel dt => MomentumDecay.decay m dt vel) v
      = MomentumDecay.decay m dts.sum v :=
  MomentumDecay.decay_foldl m hpan horbit dts hne hnn v

/-- C2 witness: splitting two seconds of decay into two one-second steps. -/
theorem momentum_decay_frame_rate_independent_witness :
    ((⟨150, 100⟩ : MomentumDecay.Momentum).pan ≤ 255
      ∧ (⟨150, 100⟩ : MomentumDecay.Momentum).orbit ≤ 255
      ∧ ([1, 1] : List ℝ) ≠ []
      ∧ (∀ dt ∈ ([1, 1] : List ℝ), 0 ≤ dt))
    ∧ ([1, 1] : List ℝ).foldl (fun vel dt => MomentumDecay.decay ⟨150, 100⟩ dt vel)
        (MomentumDecay.Velocity.Orbit (0, 0, 0) (1, 0))
      = MomentumDecay.decay ⟨150, 100⟩ ([1, 1] : List ℝ).sum
        (MomentumDecay.Velocity.Orbit (0, 0, 0) (1, 0)) :=
  ⟨⟨by norm_num, by norm_num, by simp, by
      intro dt hdt
      simp only [List.mem_cons, List.not_mem_nil, or_false] at hdt
      rcases hdt with rfl | rfl <;> norm_num⟩,
    momentum_decay_frame_rate_independent ⟨150, 100⟩ (by norm_num) (by norm_num)
      (MomentumDecay.Velocity.Orbit (0, 0, 0) (1, 0)) [1, 1] (by simp) (by
      intro dt hdt
      simp only [List.mem_cons, List.not_mem_nil, or_false] at hdt
      rcases hdt with rfl | rfl <;> norm_num)⟩

namespace OrbitResolver

theorem pitch_step_mem (y φ : ℝ) (h0 : 0 < φ) (h1 : φ < Real.pi) :
    0 < pitch_step false y φ ∧ pitch_step false y φ < Real.pi := by
  have hε : (0 : ℝ) < gimbal_lock_epsilon := by norm_num [gimbal_lock_epsilon]
  have hπφ : 0 < Real.pi - φ := by linarith
  simp only [pitch_step, applied_pitch, pitch_angle, Bool.false_eq_true, if_false]
  by_cases hdn : 0 ≤ y * orbit_multiplier
  · rw [if_pos hdn]
    have hsub : 0 ≤ φ - min gimbal_lock_epsilon φ :=
      sub_nonneg.mpr (min_le_right _ _)
    have hple : min (y * orbit_multiplier) (φ - min gimbal_lock_epsilon φ)
        ≤ φ - min gimbal_lock_epsilon φ := min_le_right _ _
    have hpge : 0 ≤ min (y * orbit_multiplier) (φ - min gimbal_lock_epsilon φ) :=
      le_min hdn hsub
    have hminpos : 0 < min gimbal_lock_epsilon φ := lt_min hε h0
    split_ifs with hth
    · constructor <;> simp <;> linarith
    · constructor <;> linarith
  · rw [if_neg hdn]
    push_neg at hdn
    have hsub : -(Real.pi - φ) + min gimbal_lock_epsilon (Real.pi - φ) ≤ 0 := by
      have := min_le_right gimbal_lock_epsilon (Real.pi - φ)
      linarith
    have hpge : -(Real.pi - φ) + min gimbal_lock_epsilon (Real.pi - φ)
        ≤ max (y * orbit_multiplier)
          (-(Real.pi - φ) + min gimbal_lock_epsilon (Real.pi - φ)) := le_max_right _ _
    have hple : max (y * orbit_multiplier)
        (-(Real.pi - φ) + min gimbal_lock_epsilon (Real.pi - φ)) ≤ 0 :=
      max_le hdn.le hsub
    have hminpos : 0 < min gimbal_lock_epsilon (Real.pi - φ) := lt_min hε hπφ
    split_ifs with hth
    · constructor <;> simp <;> linarith
    · constructor <;> linarith

theorem pitch_fold_mem (inputs : List ℝ) :
    ∀ φ : ℝ, 0 < φ → φ < Real.pi →
      0 < inputs.foldl (fun a y => pitch_step false y a) φ
      ∧ inputs.foldl (fun a y => pitch_step false y a) φ < Real.pi := by
  induction inputs with
  | nil => intro φ h0 h1; exact ⟨h0, h1⟩
  | cons y rest ih =>
    intro φ h0 h1
    have hstep := pitch_step_mem y φ h0 h1
    simpa [List.foldl_cons] using ih (pitch_step false y φ) hstep.1 hstep.2

end OrbitResolver

/-- C3: gimbal-lock guard with `can_pass_tdc = false`.  The pitch angle is
clamped to at most the current angle to the top-dead-center pole minus
`min(ε, angle)` for pitch toward TDC, and at least `-angle_to_bdc + min(ε,
angle_to_bdc)` for pitch toward BDC; consequently, starting from a forward
direction strictly between the poles, any number of per-frame pitch updates
with arbitrary (arbitrarily large, sustained) inputs keeps the angle between
camera-forward and the pole strictly between 0 and π — the camera
asymptotically approaches but never reaches top or bottom dead center. -/
theorem gimbal_lock_guard (inputs : List ℝ) (φ : ℝ) (h0 : 0 < φ)
    (h1 : φ < Real.pi) :
    (0 < inputs.foldl (fun a y => OrbitResolver.pitch_step false y a) φ
      ∧ inputs.foldl (fun a y => OrbitResolver.pitch_step false y a) φ < Real.pi)
    ∧ (∀ y angle_to_tdc angle_to_bdc : ℝ, 0 ≤ y * OrbitResolver.orbit_multiplier →
        OrbitResolver.pitch_angle false y angle_to_tdc angle_to_bdc
          ≤ angle_to_tdc - min OrbitResolver.gimbal_lock_epsilon angle_to_tdc)
    ∧ (∀ y angle_to_tdc angle_to_bdc : ℝ, y * OrbitResolver.orbit_multiplier < 0 →
        -angle_to_bdc + min OrbitResolver.gimbal_lock_epsilon angle_to_bdc
          ≤ OrbitResolver.pitch_angle false y angle_to_tdc angle_to_bdc) := by
  refine ⟨OrbitResolver.pitch_fold_mem inputs φ h0 h1, ?_, ?_⟩
  · intro y tdc bdc hy
    simp only [OrbitResolver.pitch_angle, Bool.false_eq_true, if_false, if_pos hy]
    exact min_le_right _ _
  · intro y tdc bdc hy
    simp only [OrbitResolver.pitch_angle, Bool.false_eq_true, if_false,
      if_neg (not_le.mpr hy)]
    exact le_max_right _ _

/-- C3 witness: a hundred frames of large alternating pitch input starting
one radian away from the pole. -/
theorem gimbal_lock_guard_witness :
    ((0 : ℝ) < 1 ∧ (1 : ℝ) < Real.pi)
    ∧ ((0 < (List.replicate 100 (1000 : ℝ)).foldl
          (fun a y => OrbitResolver.pitch_step false y a) 1
      ∧ (List.replicate 100 (1000 : ℝ)).foldl
          (fun a y => OrbitResolver.pitch_step false y a) 1 < Real.pi)
    ∧ (∀ y angle_to_tdc angle_to_bdc : ℝ, 0 ≤ y * OrbitResolver.orbit_multiplier →
        OrbitResolver.pitch_angle false y angle_to_tdc angle_to_bdc
          ≤ angle_to_tdc - min OrbitResolver.gimbal_lock_epsilon angle_to_tdc)
    ∧ (∀ y angle_to_tdc angle_to_bdc : ℝ, y * OrbitResolver.orbit_multiplier < 0 →
        -angle_to_bdc + min OrbitResolver.gimbal_lock_epsilon angle_to_bdc
          ≤ OrbitResolver.pitch_angle false y angle_to_tdc angle_to_bdc)) :=
  ⟨⟨by norm_num, by linarith [Real.pi_gt_three]⟩,
    gimbal_lock_guard (List.replicate 100 (1000 : ℝ)) 1 (by norm_num)
      (by linarith [Real.pi_gt_three])⟩

namespace Smoothing

variable {M : Type} [AddCommGroup M] [Module ℚ M]

omit [AddCommGroup M] [Module ℚ M] in
theorem find_exceeding_lt_length (now sm : ℚ) (q : InputQueue M) (i : ℕ)
    (h : find_exceeding now sm q = some i) : i < q.length := by
  induction q generalizing i with
  | nil => simp [find_exceeding] at h
  | cons e rest ih =>
    simp only [find_exceeding] at h
    split_ifs at h with hc
    · cases h
      simp
    · cases hf : find_exceeding now sm rest with
      | none => rw [hf] at h; simp at h
      | some j =>
        rw [hf] at h
        simp only [Option.map_some'] at h
        cases h
        have := ih j hf
        simp only [List.length_cons]
        omega

omit [AddCommGroup M] [Module ℚ M] in
theorem range_end_le_max (now sm : ℚ) (q : InputQueue M)
    (hlen : q.length ≤ MAX_EVENTS) : range_end now sm q ≤ MAX_EVENTS - 1 := by
  unfold range_end window_size
  cases hf : find_exceeding now sm q with
  | none => simp
  | some i =>
    have hi := find_exceeding_lt_length now sm q i hf
    simp only [Option.getD_some]
    refine le_trans (min_le_left _ _) ?_
    omega

omit [Module ℚ M] in
theorem sum_map_sub {α : Type} (l : List α) (f g : α → M) :
    (l.map fun x => f x - g x).sum = (l.map f).sum - (l.map g).sum := by
  induction l with
  | nil => simp
  | cons x xs ih =>
    simp only [List.map_cons, List.sum_cons, ih]
    abel

theorem queue_weight_cons (e : InputStreamEntry M) (q : InputQueue M) :
    queue_weight (e :: q) = e.fraction_remaining • e.sample + queue_weight q := by
  simp [queue_weight]

theorem queue_weight_append (l1 l2 : InputQueue M) :
    queue_weight (l1 ++ l2) = queue_weight l1 + queue_weight l2 := by
  simp [queue_weight]

theorem queue_weight_eq_zero (q : InputQueue M)
    (h : ∀ e ∈ q, e.fraction_remaining • e.sample = 0) : queue_weight q = 0 := by
  refine List.sum_eq_zero ?_
  intro x hx
  rcases List.mem_map.mp hx with ⟨e, he, rfl⟩
  exact h e he

theorem process_weight (now : ℚ) (inp : M) (sm : ℚ) (q : InputQueue M)
    (hq : ∀ e ∈ q, 0 ≤ e.fraction_remaining) (hlen : q.length ≤ MAX_EVENTS) :
    queue_weight (process_input now inp sm q) + smoothed_value_of now inp sm q
      = queue_weight q + inp := by
  have hr255 : range_end now sm q ≤ MAX_EVENTS - 1 := range_end_le_max now sm q hlen
  simp only [process_input, smoothed_value_of]
  set t := target_fraction now sm q with ht
  set r := range_end now sm q with hr
  set P := (q.take r).map (fun e =>
    { e with fraction_remaining := max (e.fraction_remaining - min e.fraction_remaining t) 0 }) with hP
  set S := (q.drop r).map (fun e =>
    if 0 < e.fraction_remaining then { e with fraction_remaining := 0 } else e) with hS
  have hSelem : ∀ e ∈ S, e.fraction_remaining • e.sample = 0 := by
    intro e he
    rcases List.mem_map.mp he with ⟨e0, he0, rfl⟩
    by_cases hp : 0 < e0.fraction_remaining
    · simp [hp]
    · have h0 : e0.fraction_remaining = 0 :=
        le_antisymm (not_lt.mp hp) (hq e0 (List.drop_subset r q he0))
      simp [hp, h0]
  have hSw : queue_weight S = 0 := queue_weight_eq_zero S hSelem
  have hPw : queue_weight P
      = queue_weight (q.take r)
        - ((q.take r).map fun e => min e.fraction_remaining t • e.sample).sum := by
    unfold queue_weight
    rw [hP, List.map_map]
    have hcongr : (q.take r).map ((fun e : InputStreamEntry M => e.fraction_remaining • e.sample)
          ∘ (fun e => { e with fraction_remaining := max (e.fraction_remaining - min e.fraction_remaining t) 0 }))
        = (q.take r).map (fun e => e.fraction_remaining • e.sample - min e.fraction_remaining t • e.sample) := by
      refine List.map_congr_left ?_
      intro e he
      simp only [Function.comp]
      rw [max_eq_left (sub_nonneg.mpr (min_le_left _ _)), sub_smul]
    rw [hcongr, sum_map_sub]
  have hlenP : P.length ≤ MAX_EVENTS - 1 := by
    rw [hP, List.length_map, List.length_take]
    exact le_trans (min_le_left _ _) hr255
  have hdropzero : queue_weight ((P ++ S).drop (MAX_EVENTS - 1)) = 0 := by
    refine queue_weight_eq_zero _ ?_
    intro e he
    rw [List.drop_append_eq_append_drop] at he
    rcases List.mem_append.mp he with h1 | h2
    · rw [List.drop_eq_nil_of_le hlenP] at h1
      cases h1
    · exact hSelem e (List.drop_subset _ _ h2)
  have htake : queue_weight ((P ++ S).take (MAX_EVENTS - 1)) = queue_weight P := by
    have hsplit : queue_weight ((P ++ S).take (MAX_EVENTS - 1))
        + queue_weight ((P ++ S).drop (MAX_EVENTS - 1)) = queue_weight (P ++ S) := by
      rw [← queue_weight_append, List.take_append_drop]
    rw [hdropzero, add_zero] at hsplit
    rw [hsplit, queue_weight_append, hSw, add_zero]
  have hconsS : ((q.drop r).map fun e =>
        if 0 < e.fraction_remaining then e.fraction_remaining • e.sample else 0).sum
      = queue_weight (q.drop r) := by
    unfold queue_weight
    refine congrArg List.sum (List.map_congr_left ?_)
    intro e he
    by_cases hp : 0 < e.fraction_remaining
    · simp [hp]
    · have h0 : e.fraction_remaining = 0 :=
        le_antisymm (not_lt.mp hp) (hq e (List.drop_subset r q he))
      simp [hp, h0]
  rw [queue_weight_cons]
  dsimp only
  rw [htake, hPw, hconsS]
  have hq_split : queue_weight (q.take r) + queue_weight (q.drop r) = queue_weight q := by
    rw [← queue_weight_append, List.take_append_drop]
  have honet : (1 : ℚ) - t + t = 1 := by ring
  have hsmul : (1 - t) • inp + t • inp = inp := by
    rw [← add_smul, honet, one_smul]
  conv_rhs => rw [← hq_split, ← hsmul]
  abel

theorem process_nonneg (now : ℚ) (inp : M) (sm : ℚ) (q : InputQueue M)
    (hq : ∀ e ∈ q, 0 ≤ e.fraction_remaining) :
    ∀ e ∈ process_input now inp sm q, 0 ≤ e.fraction_remaining := by
  intro e he
  simp only [process_input, List.mem_cons] at he
  rcases he with rfl | he
  · dsimp only
    have hws1 : 1 ≤ (window_size now sm q : ℚ) := by
      have : 1 ≤ window_size now sm q := Nat.le_add_left 1 _
      exact_mod_cast this
    have htle : target_fraction now sm q ≤ 1 := by
      unfold target_fraction
      rw [div_le_one (by linarith)]
      exact hws1
    linarith
  · rcases List.mem_append.mp (List.take_subset _ _ he) with hP | hS
    · rcases List.mem_map.mp hP with ⟨e0, he0, rfl⟩
      exact le_max_right _ _
    · rcases List.mem_map.mp hS with ⟨e0, he0, rfl⟩
      by_cases hp : 0 < e0.fraction_remaining
      · simp [hp]
      · simp only [hp, if_false]
        exact hq e0 (List.drop_subset _ _ he0)

theorem process_length (now : ℚ) (inp : M) (sm : ℚ) (q : InputQueue M) :
    (process_input now inp sm q).length ≤ MAX_EVENTS := by
  simp only [process_input, List.length_cons]
  refine le_trans (Nat.add_le_add_right (List.length_take_le _ _) 1) ?_
  norm_num [MAX_EVENTS]

theorem latest_smoothed_process (now : ℚ) (inp : M) (sm : ℚ) (q : InputQueue M) :
    latest_smoothed (process_input now inp sm q)
      = some (smoothed_value_of now inp sm q) := rfl

theorem run_conservation (calls : List (Call M)) :
    ∀ q : InputQueue M, (∀ e ∈ q, 0 ≤ e.fraction_remaining) →
      q.length ≤ MAX_EVENTS →
      outputs_sum q calls + queue_weight (run_queue q calls)
        = (calls.map fun c => c.sample).sum + queue_weight q := by
  induction calls with
  | nil => intro q hq hlen; simp [outputs_sum, run_queue]
  | cons c rest ih =>
    intro q hq hlen
    have hq2 := process_nonneg c.now c.sample c.smoothing q hq
    have hlen2 := process_length c.now c.sample c.smoothing q
    have hw := process_weight c.now c.sample c.smoothing q hq hlen
    have hrun := ih (process_input c.now c.sample c.smoothing q) hq2 hlen2
    simp only [outputs_sum, run_queue, latest_smoothed_process, Option.getD_some,
      List.map_cons, List.sum_cons]
    have hW2 := eq_sub_of_add_eq hw
    rw [add_assoc, hrun, hW2]
    abel

omit [Module ℚ M] in
theorem default_queue_nonneg (start : ℚ) :
    ∀ e ∈ (default_queue start : InputQueue M), 0 ≤ e.fraction_remaining := by
  intro e he
  rcases List.mem_map.mp he with ⟨i, hi, rfl⟩
  norm_num

omit [Module ℚ M] in
theorem default_queue_length (start : ℚ) :
    (default_queue start : InputQueue M).length ≤ MAX_EVENTS := by
  simp only [default_queue, List.length_map, List.length_range]
  norm_num [MAX_EVENTS]

theorem default_queue_weight (start : ℚ) :
    queue_weight (default_queue start : InputQueue M) = 0 := by
  refine queue_weight_eq_zero _ ?_
  intro e he
  rcases List.mem_map.mp he with ⟨i, hi, rfl⟩
  simp

end Smoothing

/-- C1: weight conservation of the smoothing queue.  For every sequence of
raw samples fed to `InputQueue::process_input` starting from the default
queue, at arbitrary instants and with arbitrary (possibly changing per call)
smoothing windows, once every entry of the resulting queue has
`fraction_remaining = 0` the sum of all smoothed output values produced
equals the sum of the raw input samples — smoothing neither loses nor adds
total displacement.  (Entries evicted by the capacity truncation always have
`fraction_remaining = 0` at eviction, which is why the balance survives
truncation; this holds for any sample type with addition and rational scalar
multiplication.) -/
theorem smoothing_queue_weight_conservation {M : Type} [AddCommGroup M]
    [Module ℚ M] (start : ℚ) (calls : List (Smoothing.Call M))
    (hfinal : ∀ e ∈ Smoothing.run_queue (Smoothing.default_queue start) calls,
      e.fraction_remaining = 0) :
    Smoothing.outputs_sum (Smoothing.default_queue start) calls
      = (calls.map fun c => c.sample).sum := by
  have h := Smoothing.run_conservation calls (Smoothing.default_queue start)
    (Smoothing.default_queue_nonneg start) (Smoothing.default_queue_length start)
  rw [Smoothing.default_queue_weight] at h
  have hzero : Smoothing.queue_weight
      (Smoothing.run_queue (Smoothing.default_queue start) calls) = 0 :=
    Smoothing.queue_weight_eq_zero _ (fun e he => by rw [hfinal e he, zero_smul])
  rw [hzero, add_zero, add_zero] at h
  exact h

set_option maxRecDepth 100000 in
/-- C1 witness: a single rational sample of `1` processed with a zero-length
window fully drains the default queue, and the smoothed output sum equals the
raw input sum. -/
theorem smoothing_queue_weight_conservation_witness :
    (∀ e ∈ Smoothing.run_queue (Smoothing.default_queue 0)
        ([⟨0, 1, 0⟩] : List (Smoothing.Call ℚ)), e.fraction_remaining = 0)
    ∧ Smoothing.outputs_sum (Smoothing.default_queue 0)
        ([⟨0, 1, 0⟩] : List (Smoothing.Call ℚ))
      = (([⟨0, 1, 0⟩] : List (Smoothing.Call ℚ)).map fun c => c.sample).sum :=
  ⟨by decide, smoothing_queue_weight_conservation 0 _ (by decide)⟩

/-- C7: `average_smoothed_value` does not return the arithmetic mean.  With
two qualifying smoothed entries `1` and `3` (both newer than the window), the
code returns `(1 + 3) / 1 = 4` — the `count` is initialised to `0` and only
incremented inside the `reduce` closure, so it ends at `n - 1` — while the
mean of the two entries is `2`. -/
theorem average_smoothed_value_miscounts :
    Smoothing.average_smoothed_value 0 1
        ([⟨0, 0, 0, 1⟩, ⟨0, 0, 0, 3⟩] : Smoothing.InputQueue ℚ) = 4
    ∧ (4 : ℚ) ≠ (1 + 3) / 2 := by
  constructor
  · decide
  · norm_num
